import Mathlib

/-!
# Verification of the psiwave-matrix MIDI clock/CC routing core

A shallow embedding of the MIDI infrastructure of the repository
(`src/midi.py`, `src/effect.py`, and the beat-edge consumer logic in
`src/main.py`), with theorems settling the specification claims.

Real numbers of the Python source (wall-clock seconds, bpm values,
unit-interval control values) are modelled as rationals `ℚ`; MIDI bytes
and counters as `ℤ`/`ℕ`.
-/

namespace PsiWave

/-! ## Utility functions (`src/midi.py` top) -/

/-- `cc_unit`: map a CC value (0..127) to 0..1, saturating at both ends. -/
def ccUnit (v : ℤ) : ℚ :=
  if v ≤ 0 then 0
  else if 127 ≤ v then 1
  else (v : ℚ) / 127

/-- `lerp(a, b, t) = a + (b - a) * t`. -/
def lerp (a b t : ℚ) : ℚ := a + (b - a) * t

/-- `clamp01`: clamp a value into [0, 1]. -/
def clamp01 (x : ℚ) : ℚ :=
  if x ≤ 0 then 0
  else if 1 ≤ x then 1
  else x

/-- Python's `round` (banker's rounding: round half to even), on rationals,
as used by `CCResolver.resolve` via `int(round(avg))`. -/
def pyRound (q : ℚ) : ℤ :=
  let f := q - ⌊q⌋
  if f < 1/2 then ⌊q⌋
  else if 1/2 < f then ⌊q⌋ + 1
  else if Even ⌊q⌋ then ⌊q⌋ else ⌊q⌋ + 1

/-! ## MIDI message types -/

/-- `MidiCC`: a Control Change message. -/
structure MidiCC where
  channel : ℤ
  control : ℤ
  value : ℤ
  t : ℚ
  deriving DecidableEq, Repr

/-- `MidiNote`: a NoteOn/NoteOff message. -/
structure MidiNote where
  channel : ℤ
  note : ℤ
  velocity : ℤ
  isOn : Bool
  t : ℚ
  deriving DecidableEq, Repr

/-! ## ClockTracker state (the `_clock_*` fields of `MidiInput`) -/

/-- The clock-tracking state owned by `MidiInput`. `ppqn` is fixed at 24
in the source (`self._clock_ppqn = 24`). -/
structure ClockState where
  running : Bool
  lastTickT : Option ℚ
  tickDts : List ℚ
  bpm : Option ℚ
  startPulse : Bool
  tickCount : ℕ
  lastDt : Option ℚ
  deriving DecidableEq, Repr

/-- The freshly-constructed clock state (`MidiInput.__init__`). -/
def freshClock : ClockState :=
  { running := false, lastTickT := none, tickDts := [], bpm := none
    startPulse := false, tickCount := 0, lastDt := none }

/-- `MidiInput._clock_on_start`. -/
def clockOnStart (s : ClockState) : ClockState :=
  { s with
    running := true, lastTickT := none, tickDts := [], bpm := none,
    startPulse := true, tickCount := 0, lastDt := none }

/-- `MidiInput._clock_on_stop`. -/
def clockOnStop (s : ClockState) : ClockState :=
  { s with
    running := false, lastTickT := none, tickDts := [], bpm := none,
    tickCount := 0, lastDt := none }

/-- `MidiInput._clock_on_tick(now_t)`: increment the tick count, switch to
running, collect the inter-tick interval into the rolling window when it
lies in [0.002 s, 0.25 s], recompute the bpm estimate once ≥ 4 samples
are present, and update the previous-tick timestamp unconditionally. -/
def clockOnTick (now : ℚ) (s : ClockState) : ClockState :=
  let s := { s with running := true, tickCount := s.tickCount + 1 }
  match s.lastTickT with
  | none => { s with lastTickT := some now }
  | some prev =>
    let dt := now - prev
    let s := { s with lastDt := some dt }
    if 1/500 ≤ dt ∧ dt ≤ 1/4 then
      let dts := s.tickDts ++ [dt]
      let dts := if 96 < dts.length then dts.drop (dts.length - 96) else dts
      let bpm :=
        if 4 ≤ dts.length then
          let avg := dts.sum / (dts.length : ℚ)
          if 0 < avg then some (60 * (1 / (avg * 24))) else s.bpm
        else s.bpm
      { s with tickDts := dts, bpm := bpm, lastTickT := some now }
    else { s with lastTickT := some now }

/-- `MidiInput.clock_state()`: returns `(running, bpm, start_pulse)` and
clears the one-shot start pulse. -/
def clockStateRead (s : ClockState) : (Bool × Option ℚ × Bool) × ClockState :=
  ((s.running, s.bpm, s.startPulse), { s with startPulse := false })

/-- The clock-relevant real-time events decoded by `MidiInput.drain`
(status bytes 0xF8 tick, 0xFA start, 0xFB continue, 0xFC stop). -/
inductive ClockEvent where
  | start : ClockEvent
  | stop : ClockEvent
  | cont : ClockEvent
  | tick : ℚ → ClockEvent
  deriving DecidableEq, Repr

/-- Dispatch of a clock event to the handlers, as `MidiInput.drain` does. -/
def applyClockEvent (s : ClockState) : ClockEvent → ClockState
  | .start => clockOnStart s
  | .stop => clockOnStop s
  | .cont => { s with running := true }
  | .tick t => clockOnTick t s

/-- Fold a sequence of clock events over a state. -/
def applyClockEvents (s : ClockState) (l : List ClockEvent) : ClockState :=
  l.foldl applyClockEvent s

/-- Feeding `n` ticks at a constant inter-tick interval `dt`, the `i`-th
tick arriving at time `i * dt`, into a fresh clock state. -/
def feedTicks (n : ℕ) (dt : ℚ) : ClockState :=
  applyClockEvents freshClock
    ((List.range n).map fun i : ℕ => .tick ((i : ℚ) * dt))

/-- Five tick arrival times at the constant interval 1/48 s (enough for a
bpm estimate: 4 inter-tick intervals). -/
def tickTimes5 : List ℚ :=
  (List.range 5).map fun i : ℕ => (i : ℚ) * (1/48)

/-! ## CCResolver (`src/midi.py`) -/

/-- The resolution strategy: the two `Strategy` enum members plus the
caller-supplied-callable escape hatch accepted by `CCResolver.__init__`. -/
inductive RStrategy where
  | mostRecentOfAny : RStrategy
  | averageOfLastPerChannel : RStrategy
  | custom : (List (ℤ × ℤ) → ℚ) → RStrategy

/-- The mutable numeric state of a `CCResolver`: `_per_channel` (an
insertion-ordered channel→value map, as a Python dict), `_last_value`,
and `_last_t` (initialised to -1e9). -/
structure RState where
  perChannel : List (ℤ × ℤ)
  lastValue : Option ℤ
  lastT : ℚ
  deriving DecidableEq, Repr

/-- The state of a freshly constructed `CCResolver` (also after `reset`). -/
def freshR : RState :=
  { perChannel := [], lastValue := none, lastT := -(10^9 : ℚ) }

/-- Update an insertion-ordered association list the way a Python dict
assignment does: overwrite in place if the key exists, else append. -/
def upsert : List (ℤ × ℤ) → ℤ → ℤ → List (ℤ × ℤ)
  | [], k, v => [(k, v)]
  | (k', v') :: rest, k, v =>
    if k' = k then (k, v) :: rest else (k', v') :: upsert rest k v

/-- `CCResolver.feed(cc)`: record the per-channel value, and take over as
most-recent value when `cc.t >= self._last_t` (replace on ≥). -/
def rFeed (s : RState) (cc : MidiCC) : RState :=
  let s := { s with perChannel := upsert s.perChannel cc.channel cc.value }
  if s.lastT ≤ cc.t then { s with lastValue := some cc.value, lastT := cc.t }
  else s

/-- Feed a list of CC messages in order. -/
def rFeedList (s : RState) (l : List MidiCC) : RState := l.foldl rFeed s

/-- `CCResolver.resolve()`: `None` before any data; otherwise a unit value
according to the strategy (a custom callable's result is clamped to [0,1]). -/
def rResolve (strat : RStrategy) (s : RState) : Option ℚ :=
  match s.lastValue with
  | none => none
  | some lv =>
    match strat with
    | .custom f => some (clamp01 (f s.perChannel))
    | .mostRecentOfAny => some (ccUnit lv)
    | .averageOfLastPerChannel =>
      if s.perChannel = [] then none
      else
        some (ccUnit (pyRound
          ((s.perChannel.map Prod.snd).sum / (s.perChannel.length : ℚ))))

/-! ## Effect parameter sinks (`src/effect.py`) -/

/-- An effect's parameter registry: a name→value map (the `params` dict of
declared `Param`s, holding each current value). -/
abbrev EffectState := List (String × ℚ)

/-- `Effect.set_param(name, value)`: update the named parameter if it is
declared, silently do nothing otherwise. -/
def setParamE : EffectState → String → ℚ → EffectState
  | [], _, _ => []
  | (n, x) :: rest, name, v =>
    if n = name then (n, v) :: rest else (n, x) :: setParamE rest name v

/-- A world of effect sinks, indexed by position. -/
abbrev World := List EffectState

/-- Deliver `set_param` to the sink at index `i` (out-of-range: no sink). -/
def setParamW : World → ℕ → String → ℚ → World
  | [], _, _, _ => []
  | es :: rest, 0, name, v => setParamE es name v :: rest
  | es :: rest, i + 1, name, v => es :: setParamW rest i name v

/-- Whether the sink at index `i` declares parameter `name`; `false` means
the sink rejects the parameter name (the `set_param` no-op branch). -/
def declaresParam (w : World) (i : ℕ) (name : String) : Bool :=
  match w.get? i with
  | none => false
  | some es => (es.lookup name).isSome

/-! ## CCBinding + MidiRouter (`src/midi.py`) -/

/-- `CCBinding`: watched CC numbers, target sink index, parameter name,
transform, and the owned resolver (strategy + numeric state). -/
structure Binding where
  ccs : List ℤ
  target : ℕ
  param : String
  transform : ℚ → ℚ
  strategy : RStrategy
  resolver : RState

/-- The feeding pass of `MidiRouter.process`: for each CC message in batch
order, feed it to every binding watching its control number. -/
def feedPhase (bs : List Binding) (batch : List MidiCC) : List Binding :=
  batch.foldl
    (fun bs cc =>
      bs.map fun b =>
        if cc.control ∈ b.ccs then { b with resolver := rFeed b.resolver cc }
        else b)
    bs

/-- A binding is touched by a batch when some message in it matches one of
the binding's watched control numbers (the `touched_bindings` set). -/
def touched (batch : List MidiCC) (b : Binding) : Bool :=
  batch.any fun cc => decide (cc.control ∈ b.ccs)

/-- The dispatch pass of `MidiRouter.process`: for every touched binding in
list order, resolve; if a value is available, transform it and push it to
the binding's target sink. The result lists the deliveries
`(target, param, value)` made, in order. -/
def pushPhase (bs : List Binding) (batch : List MidiCC) :
    List (ℕ × String × ℚ) :=
  bs.filterMap fun b =>
    if touched batch b then
      match rResolve b.strategy b.resolver with
      | none => none
      | some u => some (b.target, b.param, b.transform u)
    else none

/-- Apply a list of deliveries to the world of sinks, in order. -/
def applyPushes (w : World) (tr : List (ℕ × String × ℚ)) : World :=
  tr.foldl (fun w p => setParamW w p.1 p.2.1 p.2.2) w

/-- `MidiRouter.process(cc_msgs)`: feed the batch through the bindings,
then push each touched binding's resolved, transformed value to its sink.
Returns the updated bindings, the delivery trace, and the updated world. -/
def process (bs : List Binding) (batch : List MidiCC) (w : World) :
    List Binding × List (ℕ × String × ℚ) × World :=
  let bs' := feedPhase bs batch
  let tr := pushPhase bs' batch
  (bs', tr, applyPushes w tr)

/-! ## InputDecoder: `MidiInput.drain` -/

/-- One backend poll (`self._midiin.get_message()`): a message's byte
list, an empty buffer (`None`), or an exception raised by the backend. -/
inductive PollResult where
  | msg : List ℕ → PollResult
  | nothing : PollResult
  | err : PollResult
  deriving DecidableEq, Repr

/-- Processing of one polled byte list inside the `drain` loop: real-time
clock bytes are dispatched to the clock handlers, note-on/off messages are
queued, control-change messages are appended to the output batch, and
malformed messages are dropped. -/
def handleMsg (now : ℚ) (data : List ℕ) (st : ClockState)
    (notes : List MidiNote) (out : List MidiCC) :
    ClockState × List MidiNote × List MidiCC :=
  if data.length < 1 then (st, notes, out)
  else
    let status := data.headI % 256
    if status = 0xF8 then (clockOnTick now st, notes, out)
    else if status = 0xFA then (clockOnStart st, notes, out)
    else if status = 0xFB then ({ st with running := true }, notes, out)
    else if status = 0xFC then (clockOnStop st, notes, out)
    else if 0xF8 ≤ status then (st, notes, out)
    else if data.length < 3 then (st, notes, out)
    else
      let msgType := status &&& 0xF0
      let ch : ℤ := (status &&& 0x0F : ℕ) + 1
      let b1 : ℕ := (data.getD 1 0) &&& 0x7F
      let b2 : ℕ := (data.getD 2 0) &&& 0x7F
      let notes :=
        if msgType = 0x90 ∨ msgType = 0x80 then
          notes ++ [{ channel := ch, note := (b1 : ℤ), velocity := (b2 : ℤ),
                      isOn := decide (msgType = 0x90) && decide (0 < b2),
                      t := now }]
        else notes
      if msgType ≠ 0xB0 then (st, notes, out)
      else (st, notes,
            out ++ [{ channel := ch, control := (b1 : ℤ), value := (b2 : ℤ),
                      t := now }])

/-- The polling loop of `MidiInput.drain`: poll until the buffer is empty;
a backend exception is caught by the surrounding `try`/`except`, which
returns the output collected so far. Returns `(ccs, clock, notes)`. -/
def drainGo (now : ℚ) : List PollResult → ClockState → List MidiNote →
    List MidiCC → List MidiCC × ClockState × List MidiNote
  | [], st, notes, out => (out, st, notes)
  | .nothing :: _, st, notes, out => (out, st, notes)
  | .err :: _, st, notes, out => (out, st, notes)
  | .msg data :: rest, st, notes, out =>
    let r := handleMsg now data st notes out
    drainGo now rest r.1 r.2.1 r.2.2

/-- `MidiInput.drain(now_t)` against a backend whose successive poll
results are `polls`, starting from clock state `st` and note queue
`notes`. -/
def drain (now : ℚ) (polls : List PollResult) (st : ClockState)
    (notes : List MidiNote) : List MidiCC × ClockState × List MidiNote :=
  drainGo now polls st notes []

/-! ## Consumer-side beat derivation (`src/main.py` run loop) -/

/-- One frame of the render loop's beat-edge logic: observe the clock's
tick count, derive `beat_index = ticks // 24`, fire when it differs from
`last_beat_index` (initially `None`, reset to `None` on a start pulse),
and store the new index. Returns (edge fired?, new last index). -/
def beatStep (last : Option ℕ) (ticks : ℕ) : Bool × Option ℕ :=
  let b := ticks / 24
  if some b ≠ last then (true, some b) else (false, last)

/-- The edge-fired flags produced by successive frames observing the given
tick counts. -/
def beatEdges (last : Option ℕ) : List ℕ → List Bool
  | [] => []
  | t :: ts =>
    let r := beatStep last t
    r.1 :: beatEdges r.2 ts

/-- The greatest timestamp among `l`, folded from an initial bound
(`-1e9` for a fresh resolver). -/
def tmax (l : List MidiCC) (init : ℚ) : ℚ :=
  l.foldl (fun a e => max a e.t) init

/-- The value of the last event of `l`, or the default `d` when `l` is
empty (used to express "last write wins"). -/
def lastWins (l : List MidiCC) (d : Option ℤ) : Option ℤ :=
  match l.getLast? with
  | some e => some e.value
  | none => d

/-! ## Helper lemmas: fold-max over timestamps -/

theorem tmax_nil (init : ℚ) : tmax [] init = init := rfl

theorem tmax_cons (e : MidiCC) (l : List MidiCC) (init : ℚ) :
    tmax (e :: l) init = tmax l (max init e.t) := rfl

theorem le_tmax_init (l : List MidiCC) (init : ℚ) : init ≤ tmax l init := by
  induction l generalizing init with
  | nil => exact le_refl _
  | cons e l ih =>
    rw [tmax_cons]
    exact le_trans (le_max_left _ _) (ih (max init e.t))

theorem tmax_ge_mem (l : List MidiCC) (init : ℚ) (e : MidiCC) (he : e ∈ l) :
    e.t ≤ tmax l init := by
  induction l generalizing init with
  | nil => cases he
  | cons a l ih =>
    rw [tmax_cons]
    rcases List.mem_cons.mp he with h | h
    · subst h
      exact le_trans (le_max_right _ _) (le_tmax_init _ _)
    · exact ih (max init a.t) h

theorem tmax_attained (l : List MidiCC) (init : ℚ) :
    tmax l init = init ∨ ∃ e ∈ l, tmax l init = e.t := by
  induction l generalizing init with
  | nil => exact Or.inl rfl
  | cons a l ih =>
    rw [tmax_cons]
    rcases ih (max init a.t) with h | ⟨e, he, h⟩
    · rcases max_choice init a.t with hm | hm
      · exact Or.inl (h.trans hm)
      · exact Or.inr ⟨a, List.mem_cons_self a l, h.trans hm⟩
    · exact Or.inr ⟨e, List.mem_cons_of_mem a he, h⟩

theorem tmax_eq_init (l : List MidiCC) (init : ℚ)
    (h : ∀ e ∈ l, e.t ≤ init) : tmax l init = init := by
  induction l generalizing init with
  | nil => rfl
  | cons a l ih =>
    rw [tmax_cons, max_eq_left (h a (List.mem_cons_self a l))]
    exact ih init fun e he => h e (List.mem_cons_of_mem a he)

/-! ## Helper lemmas: resolver feeding -/

theorem rFeed_lastT (s : RState) (cc : MidiCC) :
    (rFeed s cc).lastT = max s.lastT cc.t := by
  unfold rFeed
  by_cases h : s.lastT ≤ cc.t
  · simp [h, max_eq_right h]
  · simp [h, max_eq_left (le_of_not_le h)]

theorem rFeed_lastValue (s : RState) (cc : MidiCC) :
    (rFeed s cc).lastValue =
      if s.lastT ≤ cc.t then some cc.value else s.lastValue := by
  unfold rFeed
  by_cases h : s.lastT ≤ cc.t <;> simp [h]

theorem rFeedList_lastT (l : List MidiCC) (s : RState) :
    (rFeedList s l).lastT = tmax l s.lastT := by
  induction l generalizing s with
  | nil => rfl
  | cons e l ih =>
    show (rFeedList (rFeed s e) l).lastT = tmax l (max s.lastT e.t)
    rw [ih, rFeed_lastT]

theorem lastWins_nil (d : Option ℤ) : lastWins [] d = d := rfl

theorem lastWins_singleton (e : MidiCC) (d : Option ℤ) :
    lastWins [e] d = some e.value := rfl

theorem lastWins_cons_cons (x y : MidiCC) (xs : List MidiCC)
    (d₁ d₂ : Option ℤ) :
    lastWins (x :: y :: xs) d₁ = lastWins (y :: xs) d₂ := by
  unfold lastWins
  rw [List.getLast?_cons_cons]
  rcases hg : (y :: xs).getLast? with _ | e
  · exact absurd hg (by simp)
  · rfl

theorem lastWins_congr_default (x : MidiCC) (xs : List MidiCC)
    (d₁ d₂ : Option ℤ) :
    lastWins (x :: xs) d₁ = lastWins (x :: xs) d₂ := by
  cases xs with
  | nil => rfl
  | cons y ys => rw [lastWins_cons_cons x y ys d₁ d₂]; exact rfl

/-- Characterization of the most-recent value after feeding a batch: it is
the value of the last fed event attaining the running maximum timestamp,
or the prior value when no event reaches the prior timestamp bound. -/
theorem rFeedList_lastValue (l : List MidiCC) (s : RState) :
    (rFeedList s l).lastValue =
      lastWins (l.filter fun e => decide (e.t = tmax l s.lastT))
        s.lastValue := by
  induction l generalizing s with
  | nil => rfl
  | cons a l ih =>
    have hstep : rFeedList s (a :: l) = rFeedList (rFeed s a) l := rfl
    rw [hstep, ih]
    have hT : (rFeed s a).lastT = max s.lastT a.t := rFeed_lastT s a
    have hM : tmax l (rFeed s a).lastT = tmax (a :: l) s.lastT := by
      rw [hT, tmax_cons]
    rw [hM]
    set M := tmax (a :: l) s.lastT with hMdef
    have hfilter :
        (List.filter (fun e => decide (e.t = M)) (a :: l)) =
          if a.t = M then a :: List.filter (fun e => decide (e.t = M)) l
          else List.filter (fun e => decide (e.t = M)) l := by
      by_cases h : a.t = M <;> simp [List.filter_cons, h]
    rw [hfilter]
    rcases hl : List.filter (fun e => decide (e.t = M)) l with _ | ⟨x, xs⟩
    · -- no event of the tail attains the maximum
      rw [hl]
      have hiff : a.t = M ↔ s.lastT ≤ a.t := by
        constructor
        · intro h
          have hup : max s.lastT a.t ≤ M := by
            rw [hMdef, tmax_cons]; exact le_tmax_init _ _
          have hs : s.lastT ≤ M := le_trans (le_max_left _ _) hup
          rw [← h] at hs
          exact hs
        · intro h
          have hmix : max s.lastT a.t = a.t := max_eq_right h
          have hcases := tmax_attained l (max s.lastT a.t)
          rw [hmix] at hcases
          rcases hcases with h1 | ⟨e, he, h1⟩
          · rw [hMdef, tmax_cons, hmix]
            exact h1.symm
          · exfalso
            have hxm : e.t = M := by
              rw [hMdef, tmax_cons, hmix]
              exact h1.symm
            have hmem : e ∈ List.filter (fun e => decide (e.t = M)) l :=
              List.mem_filter.mpr ⟨he, by simp [hxm]⟩
            rw [hl] at hmem
            cases hmem
      by_cases h : a.t = M
      · rw [if_pos h, lastWins_nil, lastWins_singleton,
          rFeed_lastValue, if_pos (hiff.mp h)]
      · rw [if_neg h, lastWins_nil, lastWins_nil,
          rFeed_lastValue, if_neg (fun hc => h (hiff.mpr hc))]
    · -- the tail already contains an event attaining the maximum
      rw [hl]
      by_cases h : a.t = M
      · rw [if_pos h]
        exact (lastWins_cons_cons a x xs s.lastValue
          (rFeed s a).lastValue).symm
      · rw [if_neg h]
        exact lastWins_congr_default x xs _ _

/-- Feeding the same batch twice leaves the most-recent value where one
pass put it (the key step behind idempotent replay). -/
theorem rFeedList_twice_lastValue (l : List MidiCC) (s : RState) :
    (rFeedList (rFeedList s l) l).lastValue = (rFeedList s l).lastValue := by
  have h1 : (rFeedList s l).lastT = tmax l s.lastT := rFeedList_lastT l s
  have h2 : tmax l (rFeedList s l).lastT = tmax l s.lastT := by
    rw [h1]
    exact tmax_eq_init l _ fun e he => tmax_ge_mem l s.lastT e he
  rw [rFeedList_lastValue l (rFeedList s l), h2]
  rcases hl : List.filter (fun e => decide (e.t = tmax l s.lastT)) l
      with _ | ⟨x, xs⟩
  · rw [hl]
    rfl
  · rw [hl, rFeedList_lastValue l s, hl]
    exact lastWins_congr_default x xs _ _

/-! ## Helper lemmas: unit-interval bounds -/

theorem ccUnit_bounds (v : ℤ) : 0 ≤ ccUnit v ∧ ccUnit v ≤ 1 := by
  unfold ccUnit
  by_cases h0 : v ≤ 0
  · simp [h0]
  · by_cases h127 : 127 ≤ v
    · simp [h0, h127]
    · push_neg at h0 h127
      rw [if_neg (by omega), if_neg (by omega)]
      constructor
      · positivity
      · rw [div_le_one (by norm_num)]
        have : (v : ℚ) ≤ 127 := by exact_mod_cast le_of_lt h127
        linarith

theorem clamp01_bounds (x : ℚ) : 0 ≤ clamp01 x ∧ clamp01 x ≤ 1 := by
  unfold clamp01
  by_cases h0 : x ≤ 0
  · simp [h0]
  · by_cases h1 : 1 ≤ x
    · simp [h0, h1]
    · push_neg at h0 h1
      rw [if_neg (by linarith), if_neg (by linarith)]
      exact ⟨le_of_lt h0, le_of_lt h1⟩

/-! ## Helper lemmas: constant-interval tick feeding (at 500ms/24) -/

theorem feedTicks_succ (n : ℕ) (dt : ℚ) :
    feedTicks (n + 1) dt = clockOnTick ((n : ℚ) * dt) (feedTicks n dt) := by
  unfold feedTicks applyClockEvents
  rw [List.range_succ, List.map_append, List.foldl_append]
  rfl

/-- The state reached after `n ≥ 1` ticks at a constant interval of 1/48 s
(= 500 ms / 24): the window holds the last `min (n-1) 96` intervals and
the bpm estimate, defined from the 5th tick on, is exactly 120. -/
def steadyState (n : ℕ) : ClockState :=
  { running := true,
    lastTickT := some (((n - 1 : ℕ) : ℚ) * (1/48)),
    tickDts := List.replicate (min (n - 1) 96) (1/48),
    bpm := if 5 ≤ n then some 120 else none,
    startPulse := false,
    tickCount := n,
    lastDt := if 2 ≤ n then some (1/48) else none }

theorem replicate_avg (k : ℕ) (hk : k ≠ 0) :
    (List.replicate k ((1 : ℚ)/48)).sum / (k : ℚ) = 1/48 := by
  have hkq : (k : ℚ) ≠ 0 := Nat.cast_ne_zero.mpr hk
  rw [List.sum_replicate, nsmul_eq_mul, mul_comm, mul_div_assoc,
    div_self hkq, mul_one]

theorem feedTicks_steady (n : ℕ) (hn : 1 ≤ n) :
    feedTicks n (1/48) = steadyState n := by
  induction n, hn using Nat.le_induction with
  | base =>
    show clockOnTick ((0 : ℚ) * (1/48)) freshClock = steadyState 1
    simp [clockOnTick, freshClock, steadyState]
  | succ m hm ih =>
    rw [feedTicks_succ, ih]
    have hm1 : ((m - 1 : ℕ) : ℚ) = (m : ℚ) - 1 := by
      have hc := Nat.cast_sub (R := ℚ) hm
      simpa using hc
    have hdt : (m : ℚ) * (1/48) - ((m - 1 : ℕ) : ℚ) * (1/48) = 1/48 := by
      rw [hm1]; ring
    have hin : ((1 : ℚ)/500 ≤ 1/48 ∧ (1 : ℚ)/48 ≤ 1/4) := by norm_num
    have hbpm : (60 : ℚ) * (1 / ((1/48) * 24)) = 120 := by norm_num
    have hsub : m + 1 - 1 = m := by omega
    rcases le_or_lt m 96 with hcap | hcap
    · -- window not yet full: it grows by one
      have hminm : min (m - 1) 96 = m - 1 := min_eq_left (by omega)
      have hgrow : List.replicate (m - 1) ((1 : ℚ)/48) ++ [(1 : ℚ)/48] =
          List.replicate m ((1 : ℚ)/48) := by
        rw [← List.replicate_succ']
        congr 1
        omega
      have h96 : ¬ (96 < (List.replicate m ((1 : ℚ)/48)).length) := by
        rw [List.length_replicate]; omega
      have havg : (List.replicate m ((1 : ℚ)/48)).sum /
          ((List.replicate m ((1 : ℚ)/48)).length : ℚ) = 1/48 := by
        rw [List.length_replicate]; exact replicate_avg m (by omega)
      simp only [clockOnTick, steadyState, hminm, hdt, hgrow, hsub]
      rw [if_pos hin, if_neg h96]
      rcases le_or_lt 4 m with h4 | h4
      · have h4len : 4 ≤ (List.replicate m ((1 : ℚ)/48)).length := by
          rw [List.length_replicate]; omega
        rw [if_pos h4len, havg,
          if_pos (show (0 : ℚ) < 1/48 by norm_num), hbpm,
          if_pos (show 5 ≤ m + 1 by omega),
          if_pos (show 2 ≤ m + 1 by omega), min_eq_left (by omega)]
      · have h4len : ¬ (4 ≤ (List.replicate m ((1 : ℚ)/48)).length) := by
          rw [List.length_replicate]; omega
        rw [if_neg h4len, if_neg (show ¬ 5 ≤ m by omega),
          if_neg (show ¬ 5 ≤ m + 1 by omega),
          if_pos (show 2 ≤ m + 1 by omega), min_eq_left (by omega)]
    · -- window full: the oldest sample is evicted
      have hminm : min (m - 1) 96 = 96 := min_eq_right (by omega)
      have hshift : List.replicate 96 ((1 : ℚ)/48) ++ [(1 : ℚ)/48] =
          (1 : ℚ)/48 :: List.replicate 96 ((1 : ℚ)/48) := by
        rw [← List.replicate_succ', List.replicate_succ]
      have h96 : 96 < ((1 : ℚ)/48 :: List.replicate 96 ((1 : ℚ)/48)).length := by
        rw [List.length_cons, List.length_replicate]; omega
      have hdrop : ((1 : ℚ)/48 :: List.replicate 96 ((1 : ℚ)/48)).drop
          (((1 : ℚ)/48 :: List.replicate 96 ((1 : ℚ)/48)).length - 96) =
          List.replicate 96 ((1 : ℚ)/48) := by
        rw [List.length_cons, List.length_replicate]
        rfl
      have h4len : 4 ≤ (List.replicate 96 ((1 : ℚ)/48)).length := by
        rw [List.length_replicate]; omega
      have havg : (List.replicate 96 ((1 : ℚ)/48)).sum /
          ((List.replicate 96 ((1 : ℚ)/48)).length : ℚ) = 1/48 := by
        rw [List.length_replicate]; exact replicate_avg 96 (by omega)
      simp only [clockOnTick, steadyState, hminm, hdt, hshift, hsub]
      rw [if_pos hin, if_pos h96, hdrop, if_pos h4len, havg,
        if_pos (show (0 : ℚ) < 1/48 by norm_num), hbpm,
        if_pos (show 5 ≤ m + 1 by omega),
        if_pos (show 2 ≤ m + 1 by omega), min_eq_right (by omega)]

/-! ## Helper lemmas: clock-state invariant -/

/-- The clock invariant of the data model: the bpm estimate exists only
with ≥ 4 window samples, and the window is capped at 96 samples. -/
def clockInv (s : ClockState) : Prop :=
  (4 ≤ s.tickDts.length ∨ s.bpm = none) ∧ s.tickDts.length ≤ 96

theorem clockInv_fresh : clockInv freshClock :=
  ⟨Or.inr rfl, by simp [freshClock]⟩

theorem clockInv_onTick (s : ClockState) (t : ℚ) (h : clockInv s) :
    clockInv (clockOnTick t s) := by
  unfold clockOnTick
  cases hl : s.lastTickT with
  | none => exact ⟨h.1, h.2⟩
  | some prev =>
    dsimp only
    by_cases hr : (1/500 : ℚ) ≤ t - prev ∧ t - prev ≤ (1/4 : ℚ)
    · rw [if_pos hr]
      rcases le_or_lt (s.tickDts ++ [t - prev]).length 96 with hle | hgt
      · rw [if_neg (by omega)]
        by_cases h4 : 4 ≤ (s.tickDts ++ [t - prev]).length
        · rw [if_pos h4]
          by_cases hpos :
              (0 : ℚ) < (s.tickDts ++ [t - prev]).sum /
                ((s.tickDts ++ [t - prev]).length : ℚ)
          · rw [if_pos hpos]
            exact ⟨Or.inl h4, hle⟩
          · rw [if_neg hpos]
            exact ⟨Or.inl h4, hle⟩
        · rw [if_neg h4]
          refine ⟨?_, hle⟩
          rcases h.1 with hlen | hnone
          · exact absurd (by simp; omega) h4
          · exact Or.inr hnone
      · rw [if_pos hgt]
        have hdlen : ((s.tickDts ++ [t - prev]).drop
            ((s.tickDts ++ [t - prev]).length - 96)).length = 96 := by
          rw [List.length_drop]
          omega
        rw [hdlen]
        rw [if_pos (by omega)]
        by_cases hpos : (0 : ℚ) < ((s.tickDts ++ [t - prev]).drop
            ((s.tickDts ++ [t - prev]).length - 96)).sum / ((96 : ℕ) : ℚ)
        · rw [if_pos hpos]
          unfold clockInv
          dsimp only
          rw [hdlen]
          exact ⟨Or.inl (by omega), by omega⟩
        · rw [if_neg hpos]
          unfold clockInv
          dsimp only
          rw [hdlen]
          exact ⟨Or.inl (by omega), by omega⟩
    · rw [if_neg hr]
      exact ⟨h.1, h.2⟩

theorem clockInv_apply (s : ClockState) (e : ClockEvent) (h : clockInv s) :
    clockInv (applyClockEvent s e) := by
  cases e with
  | start => exact ⟨Or.inr rfl, by simp [applyClockEvent, clockOnStart]⟩
  | stop => exact ⟨Or.inr rfl, by simp [applyClockEvent, clockOnStop]⟩
  | cont => exact ⟨h.1, h.2⟩
  | tick t => exact clockInv_onTick s t h

theorem clockInv_applyList (l : List ClockEvent) (s : ClockState)
    (h : clockInv s) : clockInv (applyClockEvents s l) := by
  induction l generalizing s with
  | nil => exact h
  | cons e l ih => exact ih (applyClockEvent s e) (clockInv_apply s e h)

/-! ## Helper lemmas: router feeding as a per-binding map -/

/-- Per-binding view of the feeding pass: each binding receives exactly
the batch messages matching its watched control numbers, in batch order. -/
def feedBinding (batch : List MidiCC) (b : Binding) : Binding :=
  { b with
    resolver := rFeedList b.resolver
      (batch.filter fun cc => decide (cc.control ∈ b.ccs)) }

theorem feedPhase_eq_map (bs : List Binding) (batch : List MidiCC) :
    feedPhase bs batch = bs.map (feedBinding batch) := by
  induction batch generalizing bs with
  | nil =>
    show bs = bs.map (feedBinding [])
    have hfun : feedBinding [] = id := funext fun _ => rfl
    rw [hfun, List.map_id]
  | cons cc rest ih =>
    show feedPhase
        (bs.map fun b =>
          if cc.control ∈ b.ccs then { b with resolver := rFeed b.resolver cc }
          else b) rest = bs.map (feedBinding (cc :: rest))
    rw [ih, List.map_map]
    apply List.map_congr_left
    intro b _
    show feedBinding rest
        (if cc.control ∈ b.ccs then { b with resolver := rFeed b.resolver cc }
         else b) = feedBinding (cc :: rest) b
    have hfil : (cc :: rest).filter (fun x => decide (x.control ∈ b.ccs)) =
        if cc.control ∈ b.ccs then
          cc :: rest.filter (fun x => decide (x.control ∈ b.ccs))
        else rest.filter (fun x => decide (x.control ∈ b.ccs)) := by
      by_cases h : cc.control ∈ b.ccs <;> simp [List.filter_cons, h]
    by_cases h : cc.control ∈ b.ccs
    · rw [if_pos h]
      unfold feedBinding
      rw [hfil, if_pos h]
      rfl
    · rw [if_neg h]
      unfold feedBinding
      rw [hfil, if_neg h]

/-! ## Helper lemmas: drain truncation at a backend failure -/

theorem drainGo_err (now : ℚ) (pre post : List PollResult) :
    ∀ (st : ClockState) (notes : List MidiNote) (out : List MidiCC),
    drainGo now (pre ++ .err :: post) st notes out =
      drainGo now pre st notes out := by
  induction pre with
  | nil => intro st notes out; rfl
  | cons p rest ih =>
    intro st notes out
    cases p with
    | msg data =>
      show drainGo now (rest ++ .err :: post) _ _ _ = drainGo now rest _ _ _
      exact ih _ _ _
    | nothing => rfl
    | err => rfl

/-! ## Helper lemmas: existence of a maximal-timestamp event -/

theorem exists_attains_tmax (l : List MidiCC) (init : ℚ) (hne : l ≠ [])
    (h : ∀ e ∈ l, init ≤ e.t) : ∃ e ∈ l, e.t = tmax l init := by
  rcases tmax_attained l init with h0 | ⟨e, he, hm⟩
  · obtain ⟨e, he⟩ := List.exists_mem_of_ne_nil l hne
    refine ⟨e, he, le_antisymm (tmax_ge_mem l init e he) ?_⟩
    rw [h0]
    exact h e he
  · exact ⟨e, he, hm.symm⟩

/-! ## Claim C1: tempo convergence -/

/-- C1 (counterexample): the claim's convergence target of 60 bpm is
refuted by the code: 24 ticks at a constant 500 ms / 24 = 1/48 s interval
make the estimate exactly 120 bpm, which is not within 1% of 60. -/
theorem tempo_convergence_counterexample :
    (feedTicks 24 (1/48)).bpm = some 120 ∧
    ¬ (∃ r, (feedTicks 24 (1/48)).bpm = some r ∧ |r - 60| ≤ (1/100) * 60) := by
  have h := feedTicks_steady 24 (by omega)
  constructor
  · rw [h]
    simp only [steadyState]
    rw [if_pos (by omega)]
  · rintro ⟨r, hr, habs⟩
    rw [h] at hr
    simp only [steadyState] at hr
    rw [if_pos (by omega)] at hr
    have hr120 : r = 120 := by
      injection hr with hv
      exact hv.symm
    rw [hr120] at habs
    norm_num at habs

/-- C1 (amended): feeding 24 ticks at a constant 500 ms / 24 interval
converges the bpm estimate to within 1% of 120 (the MIDI-clock tempo that
interval encodes; the estimate is exactly 120) within the first 24 ticks,
and it stays within 0.5% of 120 for 100 more ticks at the same interval. -/
theorem tempo_convergence_120 :
    (∃ r, (feedTicks 24 (1/48)).bpm = some r ∧ |r - 120| ≤ (1/100) * 120) ∧
    ∀ j : ℕ, j ≤ 100 →
      ∃ r, (feedTicks (24 + j) (1/48)).bpm = some r ∧
        |r - 120| ≤ (5/1000) * 120 := by
  constructor
  · refine ⟨120, ?_, by norm_num⟩
    rw [feedTicks_steady 24 (by omega)]
    simp only [steadyState]
    rw [if_pos (by omega)]
  · intro j hj
    refine ⟨120, ?_, by norm_num⟩
    rw [feedTicks_steady (24 + j) (by omega)]
    simp only [steadyState]
    rw [if_pos (by omega)]

/-- C1 (witness): the amended theorem applied at the last of the 100
stability ticks. -/
theorem tempo_convergence_120_witness :
    (100 ≤ 100) ∧
    ∃ r, (feedTicks (24 + 100) (1/48)).bpm = some r ∧
      |r - 120| ≤ (5/1000) * 120 :=
  ⟨le_refl 100, tempo_convergence_120.2 100 (le_refl 100)⟩

/-! ## Claim C3: beat-edge derivation -/

/-- C3 (counterexample): the render loop initialises the remembered beat
index to `None`, so the edge condition also fires at the very first
observation; observing tick counts 0..23 does not yield zero edges. -/
theorem beat_edge_counterexample :
    ¬ (∀ e ∈ beatEdges none (List.range 24), e = false) := by decide

/-- C3 (amended): the first observation always fires an edge (the loop
locks on from the `None` initial index); thereafter an edge fires exactly
when the derived beat index `ticks / 24` changes between consecutive
observations. Observing tick counts 0..25 fires exactly at 0 (lock-on)
and at 24 — not at 23 or 25. -/
theorem beat_edge_amended :
    beatEdges none (List.range 26) =
      true :: (List.replicate 23 false ++ [true, false]) ∧
    ∀ (p tk : ℕ), (beatStep (some p) tk).1 = decide (tk / 24 ≠ p) := by
  constructor
  · decide
  · intro p tk
    by_cases h : tk / 24 = p <;> simp [beatStep, h]

/-! ## Claim C4: polling failure handling in drain -/

/-- C4 (counterexample): when the backend raises after a CC message was
already polled, `drain` returns that partially collected batch — not "no
new events". The exception still does not propagate. -/
theorem drain_failure_counterexample :
    (drain 0 [.msg [0xB0, 5, 99], .err] freshClock []).1 =
      [{ channel := 1, control := 5, value := 99, t := 0 }] ∧
    [({ channel := 1, control := 5, value := 99, t := 0 } : MidiCC)] ≠
      ([] : List MidiCC) := by
  constructor
  · decide
  · simp

/-- C4 (amended): a backend exception while polling never propagates:
`drain` returns normally with exactly the events decoded from the
messages polled before the failure (an empty batch when the failure comes
first), and everything buffered after the failure is ignored. -/
theorem drain_failure_amended (now : ℚ) (polls post : List PollResult)
    (st : ClockState) (notes : List MidiNote) :
    drain now (polls ++ .err :: post) st notes = drain now polls st notes :=
  drainGo_err now polls post st notes []

/-! ## Claim C5: Start resets state, one-shot start pulse -/

/-- C5: after any tick sequence that accumulated a tick count and a bpm
estimate, a Start event resets the tick count to 0, clears the interval
window, clears the bpm estimate, and arms the start pulse; the next
`clock_state()` read reports the pulse once and the following read reports
it cleared. -/
theorem start_resets_state (l : List ℚ)
    (hbpm : (applyClockEvents freshClock (l.map ClockEvent.tick)).bpm ≠ none)
    (hcnt :
      0 < (applyClockEvents freshClock (l.map ClockEvent.tick)).tickCount) :
    (clockOnStart (applyClockEvents freshClock
        (l.map ClockEvent.tick))).tickCount = 0 ∧
    (clockOnStart (applyClockEvents freshClock
        (l.map ClockEvent.tick))).tickDts = [] ∧
    (clockOnStart (applyClockEvents freshClock
        (l.map ClockEvent.tick))).bpm = none ∧
    (clockOnStart (applyClockEvents freshClock
        (l.map ClockEvent.tick))).startPulse = true ∧
    (clockStateRead (clockOnStart (applyClockEvents freshClock
        (l.map ClockEvent.tick)))).1.2.2 = true ∧
    (clockStateRead ((clockStateRead (clockOnStart (applyClockEvents
        freshClock (l.map ClockEvent.tick)))).2)).1.2.2 = false :=
  ⟨rfl, rfl, rfl, rfl, rfl, rfl⟩

/-- C5 (witness): the reset behaviour at a concrete 5-tick history whose
bpm estimate is 120. -/
theorem start_resets_state_witness :
    ((applyClockEvents freshClock (tickTimes5.map ClockEvent.tick)).bpm ≠
        none) ∧
    (0 < (applyClockEvents freshClock
        (tickTimes5.map ClockEvent.tick)).tickCount) ∧
    (clockOnStart (applyClockEvents freshClock
        (tickTimes5.map ClockEvent.tick))).bpm = none ∧
    (clockStateRead (clockOnStart (applyClockEvents freshClock
        (tickTimes5.map ClockEvent.tick)))).1.2.2 = true ∧
    (clockStateRead ((clockStateRead (clockOnStart (applyClockEvents
        freshClock (tickTimes5.map ClockEvent.tick)))).2)).1.2.2 = false := by
  have hfeed : applyClockEvents freshClock (tickTimes5.map ClockEvent.tick) =
      feedTicks 5 (1/48) := by
    unfold tickTimes5 feedTicks
    rw [List.map_map]
    rfl
  have hbpm : (applyClockEvents freshClock
      (tickTimes5.map ClockEvent.tick)).bpm ≠ none := by
    rw [hfeed, feedTicks_steady 5 (by omega)]
    simp only [steadyState]
    rw [if_pos (by omega)]
    exact Option.some_ne_none _
  have hcnt : 0 < (applyClockEvents freshClock
      (tickTimes5.map ClockEvent.tick)).tickCount := by
    rw [hfeed, feedTicks_steady 5 (by omega)]
    norm_num [steadyState]
  have h := start_resets_state tickTimes5 hbpm hcnt
  exact ⟨hbpm, hcnt, h.2.2.1, h.2.2.2.2.1, h.2.2.2.2.2⟩

/-! ## Claim C6: spurious inter-tick gaps are excluded from the window -/

/-- C6: a tick whose inter-tick gap lies outside [0.002 s, 0.25 s] leaves
the interval window and the bpm estimate unchanged, while the tick count
is still incremented, the transport stays running, and the previous-tick
timestamp is still updated to the new arrival time. -/
theorem spurious_tick_excluded (s : ClockState) (now prev : ℚ)
    (hprev : s.lastTickT = some prev) (hrun : s.running = true)
    (hout : now - prev < 1/500 ∨ 1/4 < now - prev) :
    (clockOnTick now s).tickDts = s.tickDts ∧
    (clockOnTick now s).bpm = s.bpm ∧
    (clockOnTick now s).tickCount = s.tickCount + 1 ∧
    (clockOnTick now s).running = true ∧
    (clockOnTick now s).lastTickT = some now := by
  have hnot : ¬ ((1/500 : ℚ) ≤ now - prev ∧ now - prev ≤ 1/4) := by
    rcases hout with h | h
    · exact fun hc => absurd hc.1 (not_le.mpr h)
    · exact fun hc => absurd hc.2 (not_le.mpr h)
  unfold clockOnTick
  dsimp only
  rw [hprev]
  dsimp only
  rw [if_neg hnot]
  exact ⟨rfl, rfl, rfl, rfl, rfl⟩

/-- C6 (witness): a gap of 1/2 s (outside [0.002 s, 0.25 s]) at a concrete
running state. -/
theorem spurious_tick_excluded_witness :
    ((⟨true, some 1, [1/24], none, false, 2, some (1/24)⟩ :
        ClockState).lastTickT = some 1) ∧
    ((3/2 : ℚ) - 1 < 1/500 ∨ (1/4 : ℚ) < 3/2 - 1) ∧
    (clockOnTick (3/2) ⟨true, some 1, [1/24], none, false, 2,
        some (1/24)⟩).tickDts = [1/24] ∧
    (clockOnTick (3/2) ⟨true, some 1, [1/24], none, false, 2,
        some (1/24)⟩).bpm = none ∧
    (clockOnTick (3/2) ⟨true, some 1, [1/24], none, false, 2,
        some (1/24)⟩).tickCount = 2 + 1 := by
  have hout : (3/2 : ℚ) - 1 < 1/500 ∨ (1/4 : ℚ) < 3/2 - 1 := by
    right
    norm_num
  have h := spurious_tick_excluded
    ⟨true, some 1, [1/24], none, false, 2, some (1/24)⟩ (3/2) 1 rfl rfl hout
  exact ⟨rfl, hout, h.1, h.2.1, h.2.2.1⟩

/-! ## Claim C7: clock-state invariant under arbitrary event sequences -/

/-- C7: for every sequence of Start, Stop, Continue and Tick events fed to
a fresh tracker, the bpm estimate exists only when the interval window
holds at least 4 samples, and the window never exceeds 96 samples. -/
theorem clock_state_invariant (l : List ClockEvent) :
    (4 ≤ (applyClockEvents freshClock l).tickDts.length ∨
      (applyClockEvents freshClock l).bpm = none) ∧
    (applyClockEvents freshClock l).tickDts.length ≤ 96 :=
  clockInv_applyList l freshClock clockInv_fresh

/-! ## Claim C10: resolve always yields nothing or a unit value -/

/-- C10: under every strategy — the two built-ins or a caller-supplied
callable — and after any feed sequence, resolve returns either nothing or
a value in [0, 1] (the built-ins saturate through the unit mapping, a
custom callable's result is clamped). -/
theorem resolve_unit_interval (strat : RStrategy) (l : List MidiCC) :
    rResolve strat (rFeedList freshR l) = none ∨
    ∃ u, rResolve strat (rFeedList freshR l) = some u ∧ 0 ≤ u ∧ u ≤ 1 := by
  generalize rFeedList freshR l = s
  unfold rResolve
  cases hl : s.lastValue with
  | none => exact Or.inl rfl
  | some lv =>
    cases strat with
    | custom f => exact Or.inr ⟨_, rfl, clamp01_bounds _⟩
    | mostRecentOfAny => exact Or.inr ⟨_, rfl, ccUnit_bounds _⟩
    | averageOfLastPerChannel =>
      by_cases hpc : s.perChannel = []
      · rw [if_pos hpc]
        exact Or.inl rfl
      · rw [if_neg hpc]
        exact Or.inr ⟨_, rfl, ccUnit_bounds _⟩

/-! ## Claim C8: most-recent value tracks the greatest timestamp -/

/-- C8: after any feed sequence (any arrival order of nonnegative
timestamps), the stored most-recent value is the value of the last fed
event among those with the greatest timestamp seen so far (replace on ≥,
last write wins); in particular, feeding 10 at t=1, 80 at t=2, then 5 at
t=1.5 under MostRecentOfAny resolves to 80/127. -/
theorem most_recent_tracks_max_timestamp :
    (∀ l : List MidiCC, (∀ e ∈ l, 0 ≤ e.t) → l ≠ [] →
      ∃ w ∈ l, (rFeedList freshR l).lastValue = some w.value ∧
        (∀ e ∈ l, e.t ≤ w.t) ∧
        (l.filter fun e => decide (e.t = w.t)).getLast? = some w) ∧
    rResolve .mostRecentOfAny (rFeedList freshR
      [⟨1, 1, 10, 1⟩, ⟨1, 1, 80, 2⟩, ⟨1, 1, 5, 3/2⟩]) = some (80/127) := by
  constructor
  · intro l h0 hne
    have hex := exists_attains_tmax l freshR.lastT hne fun e he =>
      le_trans (show freshR.lastT ≤ 0 by norm_num [freshR]) (h0 e he)
    obtain ⟨e0, he0, he0M⟩ := hex
    have hfe : (l.filter fun e => decide (e.t = tmax l freshR.lastT)) ≠ [] := by
      intro hemp
      rw [List.filter_eq_nil_iff] at hemp
      exact hemp e0 he0 (by simp [he0M])
    rcases hfil : l.filter fun e => decide (e.t = tmax l freshR.lastT)
        with _ | ⟨x, xs⟩
    · exact absurd hfil hfe
    · have hglast : (x :: xs).getLast? =
          some ((x :: xs).getLast (List.cons_ne_nil x xs)) :=
        List.getLast?_eq_getLast_of_ne_nil _
      set w := (x :: xs).getLast (List.cons_ne_nil x xs) with hwdef
      have hwmemf : w ∈ x :: xs := List.getLast_mem _
      have hwfil : w ∈ l.filter fun e => decide (e.t = tmax l freshR.lastT) := by
        rw [hfil]
        exact hwmemf
      have hwl : w ∈ l := (List.mem_filter.mp hwfil).1
      have hwt : w.t = tmax l freshR.lastT := by
        have := (List.mem_filter.mp hwfil).2
        simpa using this
      refine ⟨w, hwl, ?_, ?_, ?_⟩
      · rw [rFeedList_lastValue l freshR, hfil]
        unfold lastWins
        rw [hglast]
      · intro e he
        rw [hwt]
        exact tmax_ge_mem l freshR.lastT e he
      · simp only [hwt]
        rw [hfil, hglast]
  · norm_num [rResolve, rFeedList, rFeed, freshR, upsert, ccUnit]

/-- C8 (witness): the general invariant applied at the concrete
out-of-order batch of the claim. -/
theorem most_recent_tracks_max_timestamp_witness :
    ((∀ e ∈ ([⟨1, 1, 10, 1⟩, ⟨1, 1, 80, 2⟩, ⟨1, 1, 5, 3/2⟩] :
        List MidiCC), 0 ≤ e.t) ∧
      ([⟨1, 1, 10, 1⟩, ⟨1, 1, 80, 2⟩, ⟨1, 1, 5, 3/2⟩] : List MidiCC) ≠ []) ∧
    ∃ w ∈ ([⟨1, 1, 10, 1⟩, ⟨1, 1, 80, 2⟩, ⟨1, 1, 5, 3/2⟩] : List MidiCC),
      (rFeedList freshR
        [⟨1, 1, 10, 1⟩, ⟨1, 1, 80, 2⟩, ⟨1, 1, 5, 3/2⟩]).lastValue =
          some w.value ∧
      (∀ e ∈ ([⟨1, 1, 10, 1⟩, ⟨1, 1, 80, 2⟩, ⟨1, 1, 5, 3/2⟩] :
          List MidiCC), e.t ≤ w.t) ∧
      (([⟨1, 1, 10, 1⟩, ⟨1, 1, 80, 2⟩, ⟨1, 1, 5, 3/2⟩] :
          List MidiCC).filter fun e => decide (e.t = w.t)).getLast? =
        some w := by
  have h0 : ∀ e ∈ ([⟨1, 1, 10, 1⟩, ⟨1, 1, 80, 2⟩, ⟨1, 1, 5, 3/2⟩] :
      List MidiCC), 0 ≤ e.t := by
    intro e he
    fin_cases he <;> norm_num
  have hne : ([⟨1, 1, 10, 1⟩, ⟨1, 1, 80, 2⟩, ⟨1, 1, 5, 3/2⟩] :
      List MidiCC) ≠ [] := by simp
  exact ⟨⟨h0, hne⟩, most_recent_tracks_max_timestamp.1 _ h0 hne⟩

/-! ## Helper lemmas: push-pass entries -/

theorem pushPhase_entry (bs : List Binding) (batch : List MidiCC)
    (b : Binding) (hb : b ∈ bs) (ht : touched batch b = true) (u : ℚ)
    (hres : rResolve b.strategy b.resolver = some u) :
    (b.target, b.param, b.transform u) ∈ pushPhase bs batch := by
  unfold pushPhase
  apply List.mem_filterMap.mpr
  refine ⟨b, hb, ?_⟩
  rw [if_pos ht, hres]

/-! ## Claim C2: a rejected parameter name does not abort the batch -/

/-- C2: when a touched binding's target sink rejects its parameter name
(the name is not among the sink's declared parameters, so `set_param`
silently does nothing), the batch is not aborted: every later binding in
the list that was touched and resolves to a value still has that value
resolved, transformed, and delivered to its own sink. -/
theorem sink_rejection_does_not_abort
    (pre post : List Binding) (brej : Binding) (batch : List MidiCC)
    (w : World)
    (htouch : touched batch brej = true)
    (hrej : declaresParam w brej.target brej.param = false) :
    ∀ b ∈ post, touched batch b = true →
      ∀ u, rResolve b.strategy (feedBinding batch b).resolver = some u →
        (b.target, b.param, b.transform u) ∈
          (process (pre ++ brej :: post) batch w).2.1 := by
  intro b hb ht u hres
  show (b.target, b.param, b.transform u) ∈
    pushPhase (feedPhase (pre ++ brej :: post) batch) batch
  rw [feedPhase_eq_map]
  exact pushPhase_entry _ batch (feedBinding batch b)
    (List.mem_map_of_mem _
      (List.mem_append_right _ (List.mem_cons_of_mem _ hb)))
    ht u hres

/-- C2 (witness): a two-binding router where the first binding's sink
rejects the name "x" while the second binding's sink accepts "z";
processing a batch touching both still delivers to the second sink. -/
theorem sink_rejection_does_not_abort_witness :
    (touched [⟨1, 5, 127, 0⟩]
        ⟨[5], 0, "x", fun u => u, .mostRecentOfAny, freshR⟩ = true) ∧
    (declaresParam [[("y", 0)], [("z", 0)]] 0 "x" = false) ∧
    ((1, "z", (1 : ℚ)) ∈
      (process [⟨[5], 0, "x", fun u => u, .mostRecentOfAny, freshR⟩,
          ⟨[5], 1, "z", fun u => u, .mostRecentOfAny, freshR⟩]
        [⟨1, 5, 127, 0⟩] [[("y", 0)], [("z", 0)]]).2.1) := by
  have htouch : touched [⟨1, 5, 127, 0⟩]
      (⟨[5], 0, "x", fun u => u, .mostRecentOfAny, freshR⟩ : Binding) =
      true := by decide
  have hrej : declaresParam [[("y", 0)], [("z", 0)]] 0 "x" = false := by
    decide
  have ht1 : touched [⟨1, 5, 127, 0⟩]
      (⟨[5], 1, "z", fun u => u, .mostRecentOfAny, freshR⟩ : Binding) =
      true := by decide
  have hres : rResolve
      (⟨[5], 1, "z", fun u => u, .mostRecentOfAny, freshR⟩ : Binding).strategy
      (feedBinding [⟨1, 5, 127, 0⟩]
        ⟨[5], 1, "z", fun u => u, .mostRecentOfAny, freshR⟩).resolver =
      some 1 := by
    show rResolve .mostRecentOfAny
      (rFeedList freshR [⟨1, 5, 127, 0⟩]) = some 1
    norm_num [rResolve, rFeedList, rFeed, freshR, upsert, ccUnit]
  refine ⟨htouch, hrej, ?_⟩
  exact sink_rejection_does_not_abort []
    [⟨[5], 1, "z", fun u => u, .mostRecentOfAny, freshR⟩]
    ⟨[5], 0, "x", fun u => u, .mostRecentOfAny, freshR⟩
    [⟨1, 5, 127, 0⟩] [[("y", 0)], [("z", 0)]] htouch hrej
    ⟨[5], 1, "z", fun u => u, .mostRecentOfAny, freshR⟩
    (List.mem_singleton.mpr rfl) ht1 1 hres

/-! ## Claim C9: replaying a batch is idempotent under MostRecentOfAny -/

/-- C9: when every binding uses the MostRecentOfAny strategy, processing
the same batch twice in succession delivers the same resolved,
post-transform value to each touched binding's sink both times. -/
theorem idempotent_replay (bs : List Binding) (batch : List MidiCC)
    (w : World)
    (hstrat : ∀ b ∈ bs, b.strategy = RStrategy.mostRecentOfAny) :
    (process (process bs batch w).1 batch (process bs batch w).2.2).2.1 =
      (process bs batch w).2.1 := by
  show pushPhase (feedPhase (feedPhase bs batch) batch) batch =
    pushPhase (feedPhase bs batch) batch
  simp only [feedPhase_eq_map]
  rw [List.map_map]
  unfold pushPhase
  rw [List.filterMap_map, List.filterMap_map]
  apply List.filterMap_congr
  intro b hb
  have hs : b.strategy = RStrategy.mostRecentOfAny := hstrat b hb
  dsimp only [Function.comp]
  have htch2 : touched batch (feedBinding batch (feedBinding batch b)) =
      touched batch b := rfl
  have htch1 : touched batch (feedBinding batch b) = touched batch b := rfl
  rw [htch2, htch1]
  by_cases hts : touched batch b = true
  · rw [if_pos hts, if_pos hts]
    have hs2 : (feedBinding batch (feedBinding batch b)).strategy =
        RStrategy.mostRecentOfAny := hs
    have hs1 : (feedBinding batch b).strategy =
        RStrategy.mostRecentOfAny := hs
    rw [hs2, hs1]
    have hlv : (feedBinding batch (feedBinding batch b)).resolver.lastValue =
        (feedBinding batch b).resolver.lastValue := by
      show (rFeedList (rFeedList b.resolver
          (batch.filter fun cc => decide (cc.control ∈ b.ccs)))
          (batch.filter fun cc => decide (cc.control ∈ b.ccs))).lastValue =
        (rFeedList b.resolver
          (batch.filter fun cc => decide (cc.control ∈ b.ccs))).lastValue
      exact rFeedList_twice_lastValue _ _
    unfold rResolve
    rw [hlv]
    rcases hl2 : (feedBinding batch b).resolver.lastValue with _ | lv
    · rfl
    · rfl
  · rw [if_neg hts, if_neg hts]

/-- C9 (witness): the idempotence theorem at a concrete one-binding
router and one-message batch. -/
theorem idempotent_replay_witness :
    (∀ b ∈ [(⟨[7], 0, "y", fun u => u, .mostRecentOfAny, freshR⟩ :
        Binding)], b.strategy = RStrategy.mostRecentOfAny) ∧
    (process
        (process [⟨[7], 0, "y", fun u => u, .mostRecentOfAny, freshR⟩]
          [⟨1, 7, 127, 2⟩] [[("y", 0)]]).1
        [⟨1, 7, 127, 2⟩]
        (process [⟨[7], 0, "y", fun u => u, .mostRecentOfAny, freshR⟩]
          [⟨1, 7, 127, 2⟩] [[("y", 0)]]).2.2).2.1 =
      (process [⟨[7], 0, "y", fun u => u, .mostRecentOfAny, freshR⟩]
        [⟨1, 7, 127, 2⟩] [[("y", 0)]]).2.1 := by
  have hs : ∀ b ∈ [(⟨[7], 0, "y", fun u => u, .mostRecentOfAny, freshR⟩ :
      Binding)], b.strategy = RStrategy.mostRecentOfAny := by
    intro b hb
    rw [List.mem_singleton.mp hb]
  exact ⟨hs, idempotent_replay _ _ _ hs⟩

end PsiWave
